import Mathlib

/-!
Verification of the Voynich slot-grammar analyzer.

The source is a family of Python scripts (`analyze_slot_grammar*.py`) sharing
one engine: a greedy left-to-right slot matcher (`parse_greedy`) over versioned
slot grammars (`SLOTS`, `SLOTS_V4`, `SLOTS_V7`, `SLOTS_V8`), a bounded
segmentation search over it (`is_v5`, `is_v6`, `is_v7`, `is_v8`, `find_split`),
and residue diagnostics (`unknown_chars_in`).  Python strings are embedded as
`List Char`; `word.startswith(option, pos)` becomes a prefix test on the
unconsumed suffix.
-/

namespace Voynich

/-- Slot grammar of `analyze_slot_grammar.py` (v1): `SLOTS`, lines 17-34. -/
def SLOTS : List (List (List Char)) :=
  [ ["l", "r", "o", "y", "s"],                             -- Slot 0
    ["q", "s", "d", "x", "l", "r"],                        -- Slot 1
    ["o", "y"],                                            -- Slot 2
    ["d", "r"],                                            -- Slot 3
    ["t", "k", "p", "f"],                                  -- Slot 4
    ["ch", "sh"],                                          -- Slot 5
    ["cth", "ckh", "cph", "cfh"],                          -- Slot 6
    ["eee", "ee", "e", "g"],                               -- Slot 7
    ["k", "t", "p", "f", "ch", "sh", "l", "r", "o", "y"],  -- Slot 8
    ["s", "d"],                                            -- Slot 9
    ["o", "a", "y"],                                       -- Slot 10
    ["iii", "ii", "i"],                                    -- Slot 11
    ["d", "l", "r", "m", "n"],                             -- Slot 12
    ["s"],                                                 -- Slot 13
    ["y"],                                                 -- Slot 14
    ["k", "t", "p", "f", "l", "r", "o", "y"]               -- Slot 15
  ].map (List.map String.toList)

/-- Slot grammar of `analyze_slot_grammar_v4.py` (also used by v5 and v6):
`SLOTS_V4` — v1 with `"h"` appended to slot 1 (v2 change) and `"c"` appended
to slot 9 (v4 change). -/
def SLOTS_V4 : List (List (List Char)) :=
  [ ["l", "r", "o", "y", "s"],
    ["q", "s", "d", "x", "l", "r", "h"],
    ["o", "y"],
    ["d", "r"],
    ["t", "k", "p", "f"],
    ["ch", "sh"],
    ["cth", "ckh", "cph", "cfh"],
    ["eee", "ee", "e", "g"],
    ["k", "t", "p", "f", "ch", "sh", "l", "r", "o", "y"],
    ["s", "d", "c"],
    ["o", "a", "y"],
    ["iii", "ii", "i"],
    ["d", "l", "r", "m", "n"],
    ["s"],
    ["y"],
    ["k", "t", "p", "f", "l", "r", "o", "y"]
  ].map (List.map String.toList)

/-- Slot grammar of `analyze_slot_grammar_v7.py`: `SLOTS_V7` — v4 with `"v"`
appended to slot 0. -/
def SLOTS_V7 : List (List (List Char)) :=
  [ ["l", "r", "o", "y", "s", "v"],
    ["q", "s", "d", "x", "l", "r", "h"],
    ["o", "y"],
    ["d", "r"],
    ["t", "k", "p", "f"],
    ["ch", "sh"],
    ["cth", "ckh", "cph", "cfh"],
    ["eee", "ee", "e", "g"],
    ["k", "t", "p", "f", "ch", "sh", "l", "r", "o", "y"],
    ["s", "d", "c"],
    ["o", "a", "y"],
    ["iii", "ii", "i"],
    ["d", "l", "r", "m", "n"],
    ["s"],
    ["y"],
    ["k", "t", "p", "f", "l", "r", "o", "y"]
  ].map (List.map String.toList)

/-- Slot grammar of `analyze_slot_grammar_v8.py`: `SLOTS_V8` — v7 with `"z"`
appended to slot 1. -/
def SLOTS_V8 : List (List (List Char)) :=
  [ ["l", "r", "o", "y", "s", "v"],
    ["q", "s", "d", "x", "l", "r", "h", "z"],
    ["o", "y"],
    ["d", "r"],
    ["t", "k", "p", "f"],
    ["ch", "sh"],
    ["cth", "ckh", "cph", "cfh"],
    ["eee", "ee", "e", "g"],
    ["k", "t", "p", "f", "ch", "sh", "l", "r", "o", "y"],
    ["s", "d", "c"],
    ["o", "a", "y"],
    ["iii", "ii", "i"],
    ["d", "l", "r", "m", "n"],
    ["s"],
    ["y"],
    ["k", "t", "p", "f", "l", "r", "o", "y"]
  ].map (List.map String.toList)

/-- Core loop of `parse_greedy` (`analyze_slot_grammar.py` lines 43-70 and its
verbatim copies in v2/v4-v8).  The Python cursor `pos` into `word` is embedded
as the unconsumed suffix `w`; `word.startswith(option, pos)` becomes
`option.isPrefixOf w`; `pos >= len(word)` becomes `w = []`.  `idx` is the
current slot index (`enumerate`). -/
def parseGreedyAux :
    List (List (List Char)) → Nat → List Char → List (Nat × List Char) × List Char
  | [], _, w => ([], w)
  | options :: slots, idx, w =>
    if w = [] then ([], w)
    else
      match options.find? (fun opt => opt.isPrefixOf w) with
      | some opt =>
        let r := parseGreedyAux slots (idx + 1) (w.drop opt.length)
        ((idx, opt) :: r.1, r.2)
      | none => parseGreedyAux slots (idx + 1) w

/-- `parse_greedy(word, slots)` (signature of `analyze_slot_grammar_v2.py`
lines 65-76 / `analyze_slot_grammar_v4.py` lines 49-60; the v1/v5-v8 copies
fix `slots` to their global grammar).  Returns `(matched_slots, remaining)`. -/
def parse_greedy (slots : List (List (List Char))) (word : List Char) :
    List (Nat × List Char) × List Char :=
  parseGreedyAux slots 0 word

/-- `is_match` of `analyze_slot_grammar.py` lines 73-75:
`remaining == "" and len(matched) > 0`, with the v1 grammar `SLOTS`. -/
def is_match (word : List Char) : Bool :=
  decide ((parse_greedy SLOTS word).2 = [] ∧ (parse_greedy SLOTS word).1 ≠ [])

/-- `is_base` of `analyze_slot_grammar_v5.py` lines 64-66 (and v6/v7/v8 copies;
`is_v4_base` of v4), parameterized by the grammar the version fixes:
`r == "" and bool(m)`. -/
def is_base (slots : List (List (List Char))) (word : List Char) : Bool :=
  decide ((parse_greedy slots word).2 = [] ∧ (parse_greedy slots word).1 ≠ [])

example : is_match "s".toList = true := by decide
example : is_match "sh".toList = false := by decide
example : is_base SLOTS_V4 "sh".toList = true := by decide
example : is_base SLOTS_V4 "d".toList = true := by decide
example : is_base SLOTS_V4 "da".toList = true := by decide
example : is_base SLOTS_V4 "aa".toList = false := by decide
example : is_base SLOTS_V4 [] = false := by decide

/-- `is_v5` of `analyze_slot_grammar_v5.py` lines 69-85: match by at most 3
repetitions of the v4 grammar.  The Python loops `for i in range(1, len(word))`
(and the inner `for j`) become `any` over `List.range` guarded by `1 ≤ i`;
`continue` on a failed prefix and early `return True` are the same Boolean.
The `lru_cache` memoization is dropped: it is a pure cache and never changes
the result. -/
def is_v5 (word : List Char) : Bool :=
  is_base SLOTS_V4 word ||
    (List.range word.length).any fun i =>
      decide (1 ≤ i) && is_base SLOTS_V4 (word.take i) &&
        (let rest := word.drop i
         is_base SLOTS_V4 rest ||
           (List.range rest.length).any fun j =>
             decide (1 ≤ j) && is_base SLOTS_V4 (rest.take j) &&
               is_base SLOTS_V4 (rest.drop j))

/-- `is_v6` of `analyze_slot_grammar_v6.py` lines 45-67: match by at most 4
repetitions of the v4 grammar (nested split loops `i`, `j`, `k`). -/
def is_v6 (word : List Char) : Bool :=
  is_base SLOTS_V4 word ||
    (List.range word.length).any fun i =>
      decide (1 ≤ i) && is_base SLOTS_V4 (word.take i) &&
        (let rest := word.drop i
         is_base SLOTS_V4 rest ||
           (List.range rest.length).any fun j =>
             decide (1 ≤ j) && is_base SLOTS_V4 (rest.take j) &&
               (let rest2 := rest.drop j
                is_base SLOTS_V4 rest2 ||
                  (List.range rest2.length).any fun k =>
                    decide (1 ≤ k) && is_base SLOTS_V4 (rest2.take k) &&
                      is_base SLOTS_V4 (rest2.drop k)))

/-- `is_v7` of `analyze_slot_grammar_v7.py` lines 45-67: same nested loops as
`is_v6`, over the v7 grammar. -/
def is_v7 (word : List Char) : Bool :=
  is_base SLOTS_V7 word ||
    (List.range word.length).any fun i =>
      decide (1 ≤ i) && is_base SLOTS_V7 (word.take i) &&
        (let rest := word.drop i
         is_base SLOTS_V7 rest ||
           (List.range rest.length).any fun j =>
             decide (1 ≤ j) && is_base SLOTS_V7 (rest.take j) &&
               (let rest2 := rest.drop j
                is_base SLOTS_V7 rest2 ||
                  (List.range rest2.length).any fun k =>
                    decide (1 ≤ k) && is_base SLOTS_V7 (rest2.take k) &&
                      is_base SLOTS_V7 (rest2.drop k)))

/-- `is_v8` of `analyze_slot_grammar_v8.py` lines 45-67: same nested loops as
`is_v6`, over the v8 grammar. -/
def is_v8 (word : List Char) : Bool :=
  is_base SLOTS_V8 word ||
    (List.range word.length).any fun i =>
      decide (1 ≤ i) && is_base SLOTS_V8 (word.take i) &&
        (let rest := word.drop i
         is_base SLOTS_V8 rest ||
           (List.range rest.length).any fun j =>
             decide (1 ≤ j) && is_base SLOTS_V8 (rest.take j) &&
               (let rest2 := rest.drop j
                is_base SLOTS_V8 rest2 ||
                  (List.range rest2.length).any fun k =>
                    decide (1 ≤ k) && is_base SLOTS_V8 (rest2.take k) &&
                      is_base SLOTS_V8 (rest2.drop k)))

/-- `find_split` of `analyze_slot_grammar_v5.py` lines 88-108: return one
matching split (a list of `(part, matched_slots)` pairs), or `[]` when none
exists.  Python's `for` loops with early `return` become `List.findSome?` over
the same ranges (first success wins, scanning split points left to right). -/
def find_split (word : List Char) :
    List (List Char × List (Nat × List Char)) :=
  if is_base SLOTS_V4 word then [(word, (parse_greedy SLOTS_V4 word).1)]
  else
    match (List.range word.length).findSome? (fun i =>
      if decide (1 ≤ i) && is_base SLOTS_V4 (word.take i) then
        let p1 := word.take i
        let m1 := (parse_greedy SLOTS_V4 p1).1
        let rest := word.drop i
        if is_base SLOTS_V4 rest then
          some [(p1, m1), (rest, (parse_greedy SLOTS_V4 rest).1)]
        else
          (List.range rest.length).findSome? (fun j =>
            if decide (1 ≤ j) && is_base SLOTS_V4 (rest.take j) &&
                is_base SLOTS_V4 (rest.drop j) then
              some [(p1, m1),
                    (rest.take j, (parse_greedy SLOTS_V4 (rest.take j)).1),
                    (rest.drop j, (parse_greedy SLOTS_V4 (rest.drop j)).1)]
            else none)
      else none) with
    | some parts => parts
    | none => []

/-- Common shape of the bounded segmentation searches: `repN n b w` is the
nested-loop search for a decomposition of `w` into at most `n` blocks each
accepted by `b`.  `is_v5 = repN 3 (is_base SLOTS_V4)`, and `is_v6`/`is_v7`/
`is_v8` are `repN 4` over their grammars (proved below by `rfl`). -/
def repN : Nat → (List Char → Bool) → List Char → Bool
  | 0, _, _ => false
  | 1, b, w => b w
  | n + 2, b, w =>
    b w ||
      (List.range w.length).any fun i =>
        decide (1 ≤ i) && b (w.take i) && repN (n + 1) b (w.drop i)

theorem is_v5_eq_repN : is_v5 = repN 3 (is_base SLOTS_V4) := rfl

theorem is_v6_eq_repN : is_v6 = repN 4 (is_base SLOTS_V4) := rfl

theorem is_v7_eq_repN : is_v7 = repN 4 (is_base SLOTS_V7) := rfl

theorem is_v8_eq_repN : is_v8 = repN 4 (is_base SLOTS_V8) := rfl

example : is_v5 "qqq".toList = true := by decide
example : is_v5 "qqqq".toList = false := by decide
example : is_v6 "qqqq".toList = true := by decide
example : is_v6 "daaaa".toList = true := by decide
example : is_v6 "qqqqq".toList = false := by decide
example : find_split "shch".toList ≠ [] := by decide
example : find_split "zzz".toList = [] := by decide

/-! ### Basic facts about the greedy matcher -/

/-- On the empty word the matcher matches nothing, whatever the grammar. -/
theorem parseGreedyAux_nil_word (slots : List (List (List Char))) (idx : Nat) :
    parseGreedyAux slots idx [] = ([], []) := by
  cases slots with
  | nil => rfl
  | cons options rest => simp [parseGreedyAux]

/-- `is_base` rejects the empty word for every grammar. -/
theorem is_base_nil (slots : List (List (List Char))) : is_base slots [] = false := by
  simp [is_base, parse_greedy, parseGreedyAux_nil_word]

/-- A word accepted by `is_base` is non-empty. -/
theorem ne_nil_of_is_base {slots : List (List (List Char))} {w : List Char}
    (h : is_base slots w = true) : w ≠ [] := by
  intro hw
  rw [hw, is_base_nil] at h
  exact Bool.false_ne_true h

/-- Concatenating the matched patterns and the leftover of the greedy matcher
reproduces its input, for any slot suffix and cursor. -/
theorem parseGreedyAux_reconstruct (slots : List (List (List Char))) :
    ∀ (idx : Nat) (w : List Char),
      ((parseGreedyAux slots idx w).1.map Prod.snd).flatten ++
        (parseGreedyAux slots idx w).2 = w := by
  induction slots with
  | nil => intro idx w; simp [parseGreedyAux]
  | cons options rest ih =>
    intro idx w
    by_cases hw : w = []
    · subst hw; simp [parseGreedyAux]
    · simp only [parseGreedyAux, if_neg hw]
      cases hfind : options.find? (fun opt => opt.isPrefixOf w) with
      | none => exact ih _ _
      | some opt =>
        have hpre : opt <+: w := by
          have := List.find?_some hfind
          simpa using this
        obtain ⟨t, rfl⟩ := hpre
        have hdrop : (opt ++ t).drop opt.length = t := List.drop_left _ _
        simp only [List.map_cons, List.flatten_cons, hdrop, List.append_assoc]
        rw [ih]

/-- The matched slot indices are strictly increasing and bounded below by the
starting index. -/
theorem parseGreedyAux_indices (slots : List (List (List Char))) :
    ∀ (idx : Nat) (w : List Char),
      List.Pairwise (· < ·) ((parseGreedyAux slots idx w).1.map Prod.fst) ∧
        ∀ q ∈ (parseGreedyAux slots idx w).1.map Prod.fst, idx ≤ q := by
  induction slots with
  | nil => intro idx w; simp [parseGreedyAux]
  | cons options rest ih =>
    intro idx w
    by_cases hw : w = []
    · subst hw; simp [parseGreedyAux]
    · simp only [parseGreedyAux, if_neg hw]
      cases hfind : options.find? (fun opt => opt.isPrefixOf w) with
      | none =>
        refine ⟨(ih (idx + 1) w).1, fun q hq => ?_⟩
        exact Nat.le_of_succ_le ((ih (idx + 1) w).2 q hq)
      | some opt =>
        simp only [List.map_cons, List.pairwise_cons, List.mem_cons]
        obtain ⟨hpair, hbound⟩ := ih (idx + 1) (w.drop opt.length)
        refine ⟨⟨fun q hq => Nat.lt_of_succ_le (hbound q hq), hpair⟩, ?_⟩
        rintro q (rfl | hq)
        · exact Nat.le_refl _
        · exact Nat.le_of_succ_le (hbound q hq)

/-- Every matched pattern belongs to one of the grammar's slots. -/
theorem parseGreedyAux_matched_mem (slots : List (List (List Char))) :
    ∀ (idx : Nat) (w : List Char),
      ∀ pr ∈ (parseGreedyAux slots idx w).1, pr.2 ∈ slots.flatten := by
  induction slots with
  | nil => intro idx w pr hpr; simp [parseGreedyAux] at hpr
  | cons options rest ih =>
    intro idx w pr hpr
    by_cases hw : w = []
    · subst hw; simp [parseGreedyAux] at hpr
    · simp only [parseGreedyAux, if_neg hw] at hpr
      cases hfind : options.find? (fun opt => opt.isPrefixOf w) with
      | none =>
        rw [hfind] at hpr
        exact List.mem_flatten_of_mem (List.mem_cons_of_mem _
          (List.mem_flatten.mp (ih _ _ pr hpr)).choose_spec.1)
          (List.mem_flatten.mp (ih _ _ pr hpr)).choose_spec.2
      | some opt =>
        rw [hfind] at hpr
        simp only [List.mem_cons] at hpr
        rcases hpr with rfl | hpr
        · exact List.mem_flatten_of_mem (List.mem_cons_self _ _)
            (List.mem_of_find?_eq_some hfind)
        · obtain ⟨l, hl, hpl⟩ := List.mem_flatten.mp (ih _ _ pr hpr)
          exact List.mem_flatten_of_mem (List.mem_cons_of_mem _ hl) hpl

/-- C1: for every input string, concatenating the matched pattern strings of
`parse_greedy`, in order, followed by the returned leftover, equals the input
exactly — no characters invented or dropped.  Stated for every grammar, so in
particular for `SLOTS` (v1, the claim's source) and for every versioned
grammar. -/
theorem parse_greedy_reconstructs (slots : List (List (List Char))) (word : List Char) :
    ((parse_greedy slots word).1.map Prod.snd).flatten ++
      (parse_greedy slots word).2 = word :=
  parseGreedyAux_reconstruct slots 0 word

/-- C9: the (slot index, pattern) pairs returned by `parse_greedy` have
strictly increasing slot indices — no slot is used twice, though slots may be
omitted.  Stated for every grammar, in particular for `SLOTS` (v1). -/
theorem parse_greedy_slot_indices_strict (slots : List (List (List Char))) (word : List Char) :
    List.Pairwise (· < ·) ((parse_greedy slots word).1.map Prod.fst) :=
  (parseGreedyAux_indices slots 0 word).1

/-- C8: the empty string is defined but never accepted: `parse_greedy` returns
an empty matched list and empty leftover without error, while `is_match` (v1)
and the bounded segmentation search `is_v6` both reject it. -/
theorem empty_string_never_accepted :
    parse_greedy SLOTS [] = ([], []) ∧ is_match [] = false ∧ is_v6 [] = false := by
  refine ⟨?_, by decide, by decide⟩
  exact parseGreedyAux_nil_word SLOTS 0

/-- C6 counterexample: no fail-fast validation exists.  `parse_greedy` with an
empty slots list — and with a slots list holding one empty slot — silently
returns the empty parse with the whole word `"sh"` as leftover, exactly the
behaviour the claim says is rejected. -/
theorem malformed_config_not_rejected_cex :
    parse_greedy [] "sh".toList = ([], "sh".toList) ∧
      parse_greedy [[]] "sh".toList = ([], "sh".toList) ∧
      is_base [] "sh".toList = false := by decide

/-- C6 amended: malformed configuration is not rejected anywhere; an empty
grammar, or a grammar holding an empty slot, makes `parse_greedy` return the
empty parse with the whole word as leftover, so every token silently fails
`is_base`. -/
theorem malformed_config_silent_no_match (word : List Char) :
    parse_greedy [] word = ([], word) ∧
      parse_greedy [[]] word = ([], word) ∧
      is_base [] word = false ∧ is_base [[]] word = false := by
  cases word with
  | nil => refine ⟨rfl, rfl, by decide, by decide⟩
  | cons c rest =>
    refine ⟨rfl, ?_, by simp [is_base, parse_greedy, parseGreedyAux], ?_⟩
    · simp [parse_greedy, parseGreedyAux, List.find?]
    · simp [is_base, parse_greedy, parseGreedyAux, List.find?]

/-! ### Characterization of the bounded segmentation search -/

/-- The nested-loop search `repN (n+1) b` accepts exactly the words that split
into at most `n+1` blocks each accepted by `b` (for a `b` rejecting the empty
word, as every `is_base` does). -/
theorem repN_eq_true_iff (b : List Char → Bool) (hb : b [] = false) :
    ∀ (n : Nat) (w : List Char),
      repN (n + 1) b w = true ↔
        ∃ parts : List (List Char), parts ≠ [] ∧ parts.length ≤ n + 1 ∧
          (∀ p ∈ parts, b p = true) ∧ parts.flatten = w := by
  intro n
  induction n with
  | zero =>
    intro w
    constructor
    · intro h
      exact ⟨[w], by simp, by simp, by simpa [repN] using h, by simp⟩
    · rintro ⟨parts, hne, hlen, hall, hjoin⟩
      cases parts with
      | nil => exact absurd rfl hne
      | cons p rest =>
        cases rest with
        | nil =>
          simp only [List.flatten_cons, List.flatten_nil, List.append_nil] at hjoin
          subst hjoin
          simpa [repN] using hall p (List.mem_cons_self _ _)
        | cons q rest2 => simp at hlen
    | succ n ih =>
    intro w
    constructor
    · intro h
      simp only [repN, Bool.or_eq_true, List.any_eq_true, Bool.and_eq_true,
        decide_eq_true_eq] at h
      rcases h with h | ⟨i, hi, ⟨h1i, hbase⟩, hrep⟩
      · exact ⟨[w], by simp, by simp, by simpa using h, by simp⟩
      · obtain ⟨parts, hne, hlen, hall, hjoin⟩ := (ih (w.drop i)).mp hrep
        refine ⟨w.take i :: parts, by simp, by simpa using hlen, ?_, ?_⟩
        · intro p hp
          rcases List.mem_cons.mp hp with rfl | hp
          · exact hbase
          · exact hall p hp
        · simp only [List.flatten_cons, hjoin, List.take_append_drop]
    · rintro ⟨parts, hne, hlen, hall, hjoin⟩
      cases parts with
      | nil => exact absurd rfl hne
      | cons p rest =>
        cases rest with
        | nil =>
          simp only [List.flatten_cons, List.flatten_nil, List.append_nil] at hjoin
          subst hjoin
          simp only [repN, Bool.or_eq_true]
          exact Or.inl (hall p (List.mem_cons_self _ _))
        | cons q rest2 =>
          have hbp : b p = true := hall p (List.mem_cons_self _ _)
          have hbq : b q = true := hall q (by simp)
          have hpne : p ≠ [] := fun hp => by rw [hp, hb] at hbp; cases hbp
          have hqne : q ≠ [] := fun hq => by rw [hq, hb] at hbq; cases hbq
          have hflat : p ++ (q :: rest2).flatten = w := by
            simpa using hjoin
          have hfne : (q :: rest2).flatten ≠ [] := by
            simp only [List.flatten_cons]
            intro hc
            exact hqne (List.append_eq_nil.mp hc).1
          have hwlen : w.length = p.length + (q :: rest2).flatten.length := by
            rw [← hflat, List.length_append]
          have hipos : 1 ≤ p.length :=
            Nat.succ_le_of_lt (List.length_pos.mpr hpne)
          have hilt : p.length < w.length := by
            have : 0 < (q :: rest2).flatten.length := List.length_pos.mpr hfne
            omega
          have htake : w.take p.length = p := by
            rw [← hflat]; exact List.take_left _ _
          have hdrop : w.drop p.length = (q :: rest2).flatten := by
            rw [← hflat]; exact List.drop_left _ _
          have hrest : repN (n + 1) b ((q :: rest2).flatten) = true := by
            refine (ih _).mpr ⟨q :: rest2, by simp, ?_, ?_, rfl⟩
            · have := hlen; simp at this ⊢; omega
            · intro x hx; exact hall x (List.mem_cons_of_mem _ hx)
          simp only [repN, Bool.or_eq_true, List.any_eq_true, Bool.and_eq_true,
            decide_eq_true_eq]
          exact Or.inr ⟨p.length, List.mem_range.mpr hilt,
            ⟨hipos, by rw [htake]; exact hbp⟩, by rw [hdrop]; exact hrest⟩

/-- Raising the block budget never turns a success into a failure. -/
theorem repN_mono_budget (b : List Char → Bool) :
    ∀ (n : Nat) (w : List Char), repN n b w = true → repN (n + 1) b w = true
  | 0, w => by simp [repN]
  | 1, w => by
    intro h
    simp only [repN] at h
    have e : repN 2 b w =
        (b w || (List.range w.length).any fun i =>
          decide (1 ≤ i) && b (w.take i) && repN 1 b (w.drop i)) := rfl
    rw [e, Bool.or_eq_true]
    exact Or.inl h
  | n + 2, w => by
    intro h
    have e1 : repN (n + 2) b w =
        (b w || (List.range w.length).any fun i =>
          decide (1 ≤ i) && b (w.take i) && repN (n + 1) b (w.drop i)) := rfl
    have e2 : repN (n + 3) b w =
        (b w || (List.range w.length).any fun i =>
          decide (1 ≤ i) && b (w.take i) && repN (n + 2) b (w.drop i)) := rfl
    rw [e1] at h
    rw [e2]
    simp only [Bool.or_eq_true, List.any_eq_true, Bool.and_eq_true] at h ⊢
    rcases h with h | ⟨i, hi, hcond, hrep⟩
    · exact Or.inl h
    · exact Or.inr ⟨i, hi, hcond, repN_mono_budget b (n + 1) _ hrep⟩

/-- The search is monotone in the block predicate. -/
theorem repN_mono_pred :
    ∀ (n : Nat) (b c : List Char → Bool),
      (∀ u, b u = true → c u = true) →
      ∀ w, repN n b w = true → repN n c w = true
  | 0, _, _, _, _ => by simp [repN]
  | 1, b, c, hbc, w => by
    simp only [repN]
    exact hbc w
  | n + 2, b, c, hbc, w => by
    simp only [repN, Bool.or_eq_true, List.any_eq_true, Bool.and_eq_true]
    rintro (h | ⟨i, hi, ⟨h1, hbase⟩, hrep⟩)
    · exact Or.inl (hbc w h)
    · exact Or.inr ⟨i, hi, ⟨h1, hbc _ hbase⟩, repN_mono_pred (n + 1) b c hbc _ hrep⟩

/-- C4: completeness and soundness of the bounded search: `is_v6` accepts a
word exactly when it is a concatenation of 1 to 4 non-empty substrings, each a
full match of the v4 grammar (`is_base SLOTS_V4`); the nested loops explore
every split point, so no decomposition within the budget is missed. -/
theorem is_v6_iff_decomposition (w : List Char) :
    is_v6 w = true ↔
      ∃ parts : List (List Char), parts ≠ [] ∧ parts.length ≤ 4 ∧
        (∀ p ∈ parts, p ≠ [] ∧ is_base SLOTS_V4 p = true) ∧ parts.flatten = w := by
  rw [is_v6_eq_repN]
  rw [repN_eq_true_iff (is_base SLOTS_V4) (is_base_nil _) 3 w]
  constructor
  · rintro ⟨parts, hne, hlen, hall, hjoin⟩
    exact ⟨parts, hne, hlen,
      fun p hp => ⟨ne_nil_of_is_base (hall p hp), hall p hp⟩, hjoin⟩
  · rintro ⟨parts, hne, hlen, hall, hjoin⟩
    exact ⟨parts, hne, hlen, fun p hp => (hall p hp).2, hjoin⟩

/-- C3 counterexample: the word `"daaaa"` realises exactly the scenario the
claim says the search must miss — its leftmost full-matching prefix `"d"`
leaves the remainder `"aaaa"`, which admits no decomposition into the
remaining 3 blocks, and only the later split `"da"` works — yet `is_v6`
still accepts it: the search does not commit to the leftmost prefix. -/
theorem segmentation_search_no_leftmost_commit_cex :
    is_base SLOTS_V4 ['d'] = true ∧
      repN 3 (is_base SLOTS_V4) ['a', 'a', 'a', 'a'] = false ∧
      is_v6 ['d', 'a', 'a', 'a', 'a'] = true := by decide

/-- C3 amended: the segmentation search scans split points left to right but
does not commit to the leftmost full-matching prefix: whenever a word splits
into at most 4 blocks that each full-match the v4 grammar — even when only a
non-leftmost first split works — `is_v6` accepts it. -/
theorem segmentation_search_finds_every_decomposition
    (w : List Char) (parts : List (List Char)) (hne : parts ≠ [])
    (hlen : parts.length ≤ 4)
    (hall : ∀ p ∈ parts, is_base SLOTS_V4 p = true)
    (hjoin : parts.flatten = w) : is_v6 w = true := by
  rw [is_v6_eq_repN]
  exact (repN_eq_true_iff (is_base SLOTS_V4) (is_base_nil _) 3 w).mpr
    ⟨parts, hne, hlen, hall, hjoin⟩

/-- Witness for the amended C3, at the counterexample word: the decomposition
`"da" ++ "a" ++ "a" ++ "a"` is found. -/
theorem segmentation_search_finds_every_decomposition_witness :
    is_v6 ['d', 'a', 'a', 'a', 'a'] = true :=
  segmentation_search_finds_every_decomposition _
    [['d', 'a'], ['a'], ['a'], ['a']] (by decide) (by decide) (by decide) rfl

/-- C5: budget monotonicity — any word the 3-block search `is_v5` accepts, the
4-block search `is_v6` (same v4 grammar) accepts as well. -/
theorem is_v5_imp_is_v6 (w : List Char) (h : is_v5 w = true) : is_v6 w = true := by
  rw [is_v5_eq_repN] at h
  rw [is_v6_eq_repN]
  exact repN_mono_budget (is_base SLOTS_V4) 3 w h

/-- Witness for C5 at `"qqq"`, which needs all 3 blocks under `is_v5`. -/
theorem is_v5_imp_is_v6_witness :
    is_v5 ['q', 'q', 'q'] = true ∧ is_v6 ['q', 'q', 'q'] = true :=
  ⟨by decide, is_v5_imp_is_v6 _ (by decide)⟩

/-! ### Soundness of the witness-producing split search -/

/-- C2: segmentation soundness.  Whenever `find_split` returns a witness split
(a non-empty list of `(part, slots)` pairs), every part is non-empty and a
full match of the v4 grammar, and the concatenation of the parts is the
original word. -/
theorem find_split_sound (w : List Char) (h : find_split w ≠ []) :
    (∀ pr ∈ find_split w, pr.1 ≠ [] ∧ is_base SLOTS_V4 pr.1 = true) ∧
      ((find_split w).map Prod.fst).flatten = w := by
  unfold find_split at h ⊢
  by_cases hbase : is_base SLOTS_V4 w = true
  · rw [if_pos hbase] at h ⊢
    refine ⟨?_, by simp⟩
    intro pr hpr
    rcases List.mem_cons.mp hpr with rfl | hpr
    · exact ⟨ne_nil_of_is_base hbase, hbase⟩
    · simp at hpr
  · rw [if_neg hbase] at h ⊢
    cases hfind : (List.range w.length).findSome? (fun i =>
      if decide (1 ≤ i) && is_base SLOTS_V4 (w.take i) then
        let p1 := w.take i
        let m1 := (parse_greedy SLOTS_V4 p1).1
        let rest := w.drop i
        if is_base SLOTS_V4 rest then
          some [(p1, m1), (rest, (parse_greedy SLOTS_V4 rest).1)]
        else
          (List.range rest.length).findSome? (fun j =>
            if decide (1 ≤ j) && is_base SLOTS_V4 (rest.take j) &&
                is_base SLOTS_V4 (rest.drop j) then
              some [(p1, m1),
                    (rest.take j, (parse_greedy SLOTS_V4 (rest.take j)).1),
                    (rest.drop j, (parse_greedy SLOTS_V4 (rest.drop j)).1)]
            else none)
      else none) with
    | none => rw [hfind] at h; exact absurd rfl h
    | some parts =>
      dsimp only at h ⊢
      obtain ⟨i, _hi, hfi⟩ := List.exists_of_findSome?_eq_some hfind
      dsimp only at hfi
      by_cases hc1 : (decide (1 ≤ i) && is_base SLOTS_V4 (w.take i)) = true
      · rw [if_pos hc1] at hfi
        obtain ⟨_h1i, htake⟩ := Bool.and_eq_true_iff.mp hc1
        by_cases hc2 : is_base SLOTS_V4 (w.drop i) = true
        · rw [if_pos hc2] at hfi
          obtain rfl := (Option.some.injEq _ _).mp hfi
          refine ⟨?_, ?_⟩
          · intro pr hpr
            rcases List.mem_cons.mp hpr with rfl | hpr
            · exact ⟨ne_nil_of_is_base htake, htake⟩
            · rcases List.mem_cons.mp hpr with rfl | hpr
              · exact ⟨ne_nil_of_is_base hc2, hc2⟩
              · simp at hpr
          · simp [List.take_append_drop]
        · rw [if_neg hc2] at hfi
          obtain ⟨j, _hj, hgj⟩ := List.exists_of_findSome?_eq_some hfi
          by_cases hc3 : (decide (1 ≤ j) && is_base SLOTS_V4 ((w.drop i).take j) &&
              is_base SLOTS_V4 ((w.drop i).drop j)) = true
          · rw [if_pos hc3] at hgj
            obtain rfl := (Option.some.injEq _ _).mp hgj
            have hands := Bool.and_eq_true_iff.mp hc3
            have htakej : is_base SLOTS_V4 ((w.drop i).take j) = true :=
              (Bool.and_eq_true_iff.mp hands.1).2
            have hdropj : is_base SLOTS_V4 ((w.drop i).drop j) = true := hands.2
            refine ⟨?_, ?_⟩
            · intro pr hpr
              rcases List.mem_cons.mp hpr with rfl | hpr
              · exact ⟨ne_nil_of_is_base htake, htake⟩
              · rcases List.mem_cons.mp hpr with rfl | hpr
                · exact ⟨ne_nil_of_is_base htakej, htakej⟩
                · rcases List.mem_cons.mp hpr with rfl | hpr
                  · exact ⟨ne_nil_of_is_base hdropj, hdropj⟩
                  · simp at hpr
            · simp [List.take_append_drop]
          · rw [if_neg hc3] at hgj
            exact absurd hgj (by simp)
      · rw [if_neg hc1] at hfi
        exact absurd hfi (by simp)

/-- Witness for C2 at `"cc"`, which is not a base match and splits as
`"c" ++ "c"`. -/
theorem find_split_sound_witness :
    ((find_split ['c', 'c']).map Prod.fst).flatten = ['c', 'c'] :=
  (find_split_sound ['c', 'c'] (by decide)).2

/-! ### Extending a grammar with `"z"` patterns -/

/-- Appending, to any slots, extra patterns that all contain `'z'` does not
change the greedy parse of a word without `'z'`: the extended slot `pr.2` must
begin with the original slot `pr.1` and only add patterns containing `'z'`,
which can never match. -/
theorem parseGreedyAux_extend_eq :
    ∀ (sa sb : List (List (List Char))) (idx : Nat) (w : List Char),
      sa.length = sb.length →
      (∀ pr ∈ sa.zip sb, pr.2.take pr.1.length = pr.1 ∧
          ∀ p ∈ pr.2.drop pr.1.length, 'z' ∈ p) →
      'z' ∉ w →
      parseGreedyAux sa idx w = parseGreedyAux sb idx w := by
  intro sa
  induction sa with
  | nil =>
    intro sb idx w hlen _ _
    obtain rfl : sb = [] := List.length_eq_zero.mp hlen.symm
    rfl
  | cons a sa ih =>
    intro sb idx w hlen hrel hw
    cases sb with
    | nil => simp at hlen
    | cons b sb =>
      obtain ⟨htake, hdropz⟩ :=
        hrel (a, b) (by rw [List.zip_cons_cons]; exact List.mem_cons_self _ _)
      have hb : b = a ++ b.drop a.length := by
        conv_lhs => rw [← List.take_append_drop a.length b, htake]
      have htailrel : ∀ pr ∈ sa.zip sb, pr.2.take pr.1.length = pr.1 ∧
          ∀ p ∈ pr.2.drop pr.1.length, 'z' ∈ p := fun pr hpr =>
        hrel pr (by rw [List.zip_cons_cons]; exact List.mem_cons_of_mem _ hpr)
      by_cases hwe : w = []
      · subst hwe; simp [parseGreedyAux]
      · simp only [parseGreedyAux, if_neg hwe]
        have hfb : b.find? (fun opt => opt.isPrefixOf w) =
            a.find? (fun opt => opt.isPrefixOf w) := by
          conv_lhs => rw [hb]
          rw [List.find?_append]
          have hnone : (b.drop a.length).find? (fun opt => opt.isPrefixOf w) = none := by
            rw [List.find?_eq_none]
            intro p hp hpre
            have hzp : 'z' ∈ p := hdropz p hp
            have hpw : p <+: w := by simpa using hpre
            exact hw (hpw.sublist.subset hzp)
          rw [hnone, Option.or_none]
        rw [hfb]
        cases hfa : a.find? (fun opt => opt.isPrefixOf w) with
        | none => exact ih sb (idx + 1) w (by simpa using hlen) htailrel hw
        | some opt =>
          have hdw : 'z' ∉ w.drop opt.length := fun hz => hw (List.mem_of_mem_drop hz)
          dsimp only
          rw [ih sb (idx + 1) (w.drop opt.length) (by simpa using hlen) htailrel hdw]

/-- A word fully matched by the v7 grammar contains no `'z'`: it is the
concatenation of its matched patterns, and no v7 pattern contains `'z'`. -/
theorem no_z_of_base_v7 (w : List Char) (h : is_base SLOTS_V7 w = true) :
    'z' ∉ w := by
  intro hzw
  simp only [is_base, decide_eq_true_eq, parse_greedy] at h
  obtain ⟨hrem, _hm⟩ := h
  have hrec := parseGreedyAux_reconstruct SLOTS_V7 0 w
  rw [hrem, List.append_nil] at hrec
  rw [← hrec] at hzw
  obtain ⟨p, hp, hzp⟩ := List.mem_flatten.mp hzw
  obtain ⟨pr, hpr, rfl⟩ := List.mem_map.mp hp
  have hmem : pr.2 ∈ SLOTS_V7.flatten :=
    parseGreedyAux_matched_mem SLOTS_V7 0 w pr hpr
  have hnoz : ∀ p ∈ SLOTS_V7.flatten, 'z' ∉ p := by decide
  exact hnoz _ hmem hzp

/-- Full matches of the v7 grammar are full matches of the v8 grammar: the v8
grammar only appends the pattern `"z"` to slot 1, and a v7 full match contains
no `'z'`, so it parses identically under v8. -/
theorem is_base_v7_imp_v8 {w : List Char} (h : is_base SLOTS_V7 w = true) :
    is_base SLOTS_V8 w = true := by
  have hz := no_z_of_base_v7 w h
  have hpp : parseGreedyAux SLOTS_V7 0 w = parseGreedyAux SLOTS_V8 0 w :=
    parseGreedyAux_extend_eq SLOTS_V7 SLOTS_V8 0 w (by decide) (by decide) hz
  simp only [is_base, parse_greedy, decide_eq_true_eq] at h ⊢
  rw [← hpp]
  exact h

/-- C10: grammar-extension monotonicity — every word `is_v7` accepts, `is_v8`
accepts as well, since appending pattern `"z"` to slot 1 never breaks an
existing v7 match. -/
theorem is_v7_imp_is_v8 (w : List Char) (h : is_v7 w = true) : is_v8 w = true := by
  rw [is_v7_eq_repN] at h
  rw [is_v8_eq_repN]
  exact repN_mono_pred 4 _ _ (fun u hu => is_base_v7_imp_v8 hu) w h

/-- Witness for C10 at `"v"`, a word only the v7/v8 grammars accept. -/
theorem is_v7_imp_is_v8_witness :
    is_v7 ['v'] = true ∧ is_v8 ['v'] = true :=
  ⟨by decide, is_v7_imp_is_v8 _ (by decide)⟩

/-! ### Residue diagnostics: `unknown_chars_in` -/

/-- `ALL_OPTIONS` of `analyze_slot_grammar.py` line 37: the set of options of
all slots (a Python `set`, embedded as the duplicate-free list of options). -/
def ALL_OPTIONS : List (List Char) := SLOTS.flatten.dedup

/-- Insert an option into a length-descending list: strictly longer options
stay in front. -/
def insertByLen (x : List Char) : List (List Char) → List (List Char)
  | [] => [x]
  | y :: ys => if y.length < x.length then x :: y :: ys else y :: insertByLen x ys

/-- Length-descending insertion sort, embedding Python's
`sorted(ALL_OPTIONS, key=len, reverse=True)` inside `unknown_chars_in`.
Python's stable sort of the unordered set fixes ties arbitrarily; among
options of equal length at most one can occur at a given position (they would
be equal prefixes of the text), so every length-descending order produces the
same diagnostic. -/
def sortLenDesc : List (List Char) → List (List Char)
  | [] => []
  | x :: xs => insertByLen x (sortLenDesc xs)

/-- The option list `unknown_chars_in` scans: all options, longest first. -/
def sortedOptions : List (List Char) := sortLenDesc ALL_OPTIONS

theorem mem_insertByLen {a x : List Char} :
    ∀ {l : List (List Char)}, a ∈ insertByLen x l ↔ a = x ∨ a ∈ l := by
  intro l
  induction l with
  | nil => simp [insertByLen]
  | cons y ys ih =>
    simp only [insertByLen]
    split
    · simp [List.mem_cons]
    · simp only [List.mem_cons, ih]
      tauto

theorem mem_sortLenDesc {a : List Char} :
    ∀ {l : List (List Char)}, a ∈ sortLenDesc l ↔ a ∈ l := by
  intro l
  induction l with
  | nil => simp [sortLenDesc]
  | cons x xs ih => simp [sortLenDesc, mem_insertByLen, ih]

/-- The scanned option list holds exactly the grammar's patterns. -/
theorem mem_sortedOptions {x : List Char} :
    x ∈ sortedOptions ↔ x ∈ SLOTS.flatten := by
  rw [sortedOptions, mem_sortLenDesc, ALL_OPTIONS, List.mem_dedup]

/-- Loop of `unknown_chars_in` (`analyze_slot_grammar.py` lines 81-95): walk
the text; at each position try the options longest first; on a match skip the
matched option, otherwise flag the current character and advance by one.  The
Python `while i < len(text)` loop is embedded with an explicit fuel bounding
the number of iterations; each iteration consumes at least one character, so
`fuel = text.length` (as `unknown_chars_in` passes) never runs out. -/
def unknownCharsGo : Nat → List Char → List Char
  | _, [] => []
  | 0, _ :: _ => []
  | fuel + 1, c :: rest =>
    match sortedOptions.find? (fun opt => opt.isPrefixOf (c :: rest)) with
    | some opt => unknownCharsGo fuel ((c :: rest).drop opt.length)
    | none => c :: unknownCharsGo fuel rest

/-- `unknown_chars_in` of `analyze_slot_grammar.py` lines 81-95: the residue
characters not covered by the greedy longest-first re-segmentation. -/
def unknown_chars_in (text : List Char) : List Char :=
  unknownCharsGo text.length text

example : unknown_chars_in "sz".toList = ['z'] := by decide
example : unknown_chars_in "sh".toList = [] := by decide

/-- A single-character option of the grammar is never flagged: at its position
the option itself matches, so the scan covers it. -/
theorem singleton_option_never_flagged (c : Char) (hc : [c] ∈ sortedOptions) :
    ∀ (fuel : Nat) (t : List Char), c ∉ unknownCharsGo fuel t := by
  intro fuel
  induction fuel with
  | zero => intro t; cases t <;> simp [unknownCharsGo]
  | succ fuel ih =>
    intro t
    cases t with
    | nil => simp [unknownCharsGo]
    | cons d rest =>
      simp only [unknownCharsGo]
      cases hfind : sortedOptions.find? (fun opt => opt.isPrefixOf (d :: rest)) with
      | some opt => exact ih _
      | none =>
        intro hmem
        rcases List.mem_cons.mp hmem with rfl | hmem
        · have hnone := List.find?_eq_none.mp hfind [c] hc
          exact hnone (by
            simp only [List.isPrefixOf_iff_prefix]
            exact ⟨rest, rfl⟩)
        · exact ih rest hmem

/-- C7 counterexample: with the v1 grammar, `unknown_chars_in "h"` flags
`'h'`, yet `'h'` occurs in the grammar's pattern `"ch"` (slot 5) — a flagged
character need not be absent from every pattern. -/
theorem unknown_chars_flags_known_char_cex :
    unknown_chars_in ['h'] = ['h'] ∧ ['c', 'h'] ∈ SLOTS.flatten ∧
      'h' ∈ ['c', 'h'] := by decide

/-- C7 amended: every character flagged by `unknown_chars_in` is covered by no
single-character pattern of the grammar — no slot option equals it — though it
may still occur inside a longer pattern. -/
theorem unknown_chars_not_single_char_pattern (t : List Char) (c : Char)
    (hc : c ∈ unknown_chars_in t) : [c] ∉ SLOTS.flatten := by
  intro hmem
  exact singleton_option_never_flagged c (mem_sortedOptions.mpr hmem) _ _ hc

/-- Witness for the amended C7 at text `"h"`. -/
theorem unknown_chars_not_single_char_pattern_witness :
    'h' ∈ unknown_chars_in ['h'] ∧ ['h'] ∉ SLOTS.flatten :=
  ⟨by decide, unknown_chars_not_single_char_pattern ['h'] 'h' (by decide)⟩

end Voynich
